import Mathlib

/-!
Shallow embedding of the auction-house data extractor (src/parser.py).

The embedding follows the source: the literal locator (the regular
expression search over the raw file contents), the per-line classifier
and field extractor, the entity assembler loop, the record projector
performed by the main routine, and the currency decomposition.  Text is
modelled as lists of characters, the regular expressions of the source
as explicit executable scanning functions, and the two Python
dictionaries (entity map and field map) as association lists with
insert-or-overwrite semantics that preserve first-insertion order, as
Python dictionaries do.
-/

abbrev Chars := List Char

/-- Whitespace as matched by the regular-expression class backslash-s. -/
def isSpaceChar (c : Char) : Bool :=
  c == ' ' || c == '\t' || c == '\n' || c == '\x0b' || c == '\x0c' || c == '\r'

/-- Decimal digit, as matched by the regular-expression class backslash-d. -/
def isDigitChar (c : Char) : Bool := c.isDigit

/-- Value of a decimal digit string, as computed by Python int(). -/
def digitsToNat (ds : Chars) : Nat :=
  ds.foldl (fun a c => a * 10 + (c.toNat - 48)) 0

/-- Boolean test that the first list is an initial segment of the second. -/
def begins : Chars → Chars → Bool
  | [], _ => true
  | _ :: _, [] => false
  | p :: ps, c :: cs => if p = c then begins ps cs else false

/-- Remove an expected literal from the front of a string, if present. -/
def stripLit : Chars → Chars → Option Chars
  | [], s => some s
  | _ :: _, [] => none
  | p :: ps, c :: cs => if p = c then stripLit ps cs else none

/-- Split a string at its first double quote: the regular-expression
fragment of one-or-more non-quote characters followed by a quote. -/
def splitAtQuote : Chars → Option (Chars × Chars)
  | [] => none
  | c :: rest =>
    if c = '"' then some ([], rest)
    else
      match splitAtQuote rest with
      | some (a, b) => some (c :: a, b)
      | none => none

/-- Start marker of the price-database literal, brace included, exactly
as in the source regular expression. -/
def startTok : Chars := ("AUCTIONATOR_PRICE_DATABASE = \x7b").toList

/-- Tail required after the closing brace of the located group: a
newline followed by the end-marker token. -/
def endTail : Chars := ("\nAUCTIONATOR_LAST_SCAN_TIME").toList

/-- Lazy group body: scan forward for the first closing brace that is
immediately followed by the end-marker tail, collecting the body.  This
is the non-greedy star of the source regular expression. -/
def grabGroup : Chars → Option Chars
  | [] => none
  | c :: rest =>
    if c = '\x7d' ∧ begins endTail rest = true then some ['\x7d']
    else (grabGroup rest).map (fun g => c :: g)

/-- Literal locator: leftmost match of the source regular expression
locating the price-database group between the two markers. -/
def locate : Chars → Option Chars
  | [] => none
  | c :: rest =>
    if begins startTok (c :: rest) = true then
      match grabGroup ((c :: rest).drop startTok.length) with
      | some g => some ('\x7b' :: g)
      | none => locate rest
    else locate rest

/-- Characters required after the quoted key name in the realm and
entity-open patterns: close bracket, space, equals, space, open brace. -/
def keyTail : Chars := (']' :: ' ' :: '=' :: ' ' :: '\x7b' :: [])

/-- Anchored match of the pattern: open bracket, quoted nonempty name,
close bracket, equals, open brace.  Returns the name on success. -/
def keyBraceAt (s : Chars) : Option Chars :=
  (stripLit ('[' :: '"' :: []) s).bind (fun r1 =>
    (splitAtQuote r1).bind (fun nr =>
      if nr.1 = [] then none
      else if begins keyTail nr.2 = true then some nr.1 else none))

/-- Unanchored search for the first key-and-open-brace occurrence: the
realm regular expression search of the source. -/
def searchKeyBrace : Chars → Option Chars
  | [] => none
  | c :: rest =>
    match keyBraceAt (c :: rest) with
    | some n => some n
    | none => searchKeyBrace rest

def lastScanKey : Chars := ("lastScan").toList

def mrKey : Chars := ("mr").toList

/-- Characters between a field key and its value: quote, close bracket,
space, equals, space. -/
def eqAssign : Chars := ('"' :: ']' :: ' ' :: '=' :: ' ' :: [])

/-- Full anchored pattern for a fixed field key. -/
def fixedPat (key : Chars) : Chars := '[' :: '"' :: (key ++ eqAssign)

/-- Anchored match of a fixed-field pattern, returning the integer value
parsed from the greedy digit run. -/
def matchFixedAt (key s : Chars) : Option Nat :=
  (stripLit (fixedPat key) s).bind (fun rest =>
    let ds := rest.takeWhile isDigitChar
    if ds = [] then none else some (digitsToNat ds))

/-- Unanchored search for a fixed-field pattern in a line. -/
def searchFixed (key : Chars) : Chars → Option Nat
  | [] => none
  | c :: rest =>
    match matchFixedAt key (c :: rest) with
    | some v => some v
    | none => searchFixed key rest

/-- Anchored match of the dynamic history pattern: the literal key
prefix H followed by one or more digits, then the assignment and a digit
value.  Returns the full key and the value. -/
def matchHistAt (s : Chars) : Option (Chars × Nat) :=
  (stripLit ('[' :: '"' :: 'H' :: []) s).bind (fun r1 =>
    let ds := r1.takeWhile isDigitChar
    if ds = [] then none
    else
      (stripLit eqAssign (r1.dropWhile isDigitChar)).bind (fun r2 =>
        let vs := r2.takeWhile isDigitChar
        if vs = [] then none else some ('H' :: ds, digitsToNat vs)))

/-- Unanchored search for the dynamic history pattern in a line. -/
def searchHist : Chars → Option (Chars × Nat)
  | [] => none
  | c :: rest =>
    match matchHistAt (c :: rest) with
    | some kv => some kv
    | none => searchHist rest

/-- Entity-open name extraction: the anchored line match that skips
leading whitespace and then requires the key-and-open-brace pattern. -/
def itemNameMatch (line : Chars) : Option Chars :=
  keyBraceAt (line.dropWhile isSpaceChar)

/-- Remove the longest suffix of characters satisfying the predicate. -/
def dropTrailing (p : Char → Bool) (l : Chars) : Chars :=
  (l.reverse.dropWhile p).reverse

/-- Python strip: remove leading and trailing whitespace. -/
def stripChars (l : Chars) : Chars :=
  dropTrailing isSpaceChar (l.dropWhile isSpaceChar)

/-- The terminator text: a closing brace followed by a comma. -/
def termChars : Chars := ('\x7d' :: ',' :: [])

/-- Terminator-line test: the stripped line is exactly the closing brace
plus comma. -/
def isTermLine (l : Chars) : Bool := decide (stripChars l = termChars)

abbrev Fields := List (Chars × Nat)

abbrev Items := List (Chars × Fields)

/-- Dictionary write: overwrite the binding if the key is present
(keeping its position), otherwise append at the end.  This is exactly
the update behaviour of a Python dictionary. -/
def insertAssoc {α : Type} (k : Chars) (v : α) : List (Chars × α) → List (Chars × α)
  | [] => [(k, v)]
  | (k', v') :: t => if k' = k then (k', v) :: t else (k', v') :: insertAssoc k v t

/-- Dictionary read. -/
def lookupA {α : Type} (k : Chars) : List (Chars × α) → Option α
  | [] => none
  | (k', v) :: t => if k' = k then some v else lookupA k t

/-- State threaded through the line loop: committed entities, the
currently open entity name, and its accumulated fields. -/
structure PState where
  items : Items
  curName : Option Chars
  curData : Fields
  deriving DecidableEq

/-- Field extraction applied to one line: the lastScan check, the mr
check and the history check, each updating the accumulator when its
pattern occurs in the line. -/
def fieldApply (d : Fields) (line : Chars) : Fields :=
  let d1 := match searchFixed lastScanKey line with
    | some v => insertAssoc lastScanKey v d
    | none => d
  let d2 := match searchFixed mrKey line with
    | some v => insertAssoc mrKey v d1
    | none => d1
  match searchHist line with
  | some kv => insertAssoc kv.1 kv.2 d2
  | none => d2

/-- Commit performed on re-open: save the previous entity if one is open
and its accumulator is nonempty. -/
def commitIfPending (s : PState) : Items :=
  match s.curName with
  | some cn => if s.curData = [] then s.items else insertAssoc cn s.curData s.items
  | none => s.items

/-- Field-and-terminator part of the loop body, entered when the line
was not taken as an entity open: runs only while an entity is open,
applies the field extractors, then commits and closes on a terminator
line (committing only a nonempty accumulator). -/
def stepField (s : PState) (line : Chars) : PState :=
  match s.curName with
  | none => s
  | some cn =>
    let d := fieldApply s.curData line
    if isTermLine line = true then
      { items := if d = [] then s.items else insertAssoc cn d s.items,
        curName := none, curData := [] }
    else
      { items := s.items, curName := some cn, curData := d }

/-- One iteration of the line loop: a line whose anchored match succeeds
and that contains exactly one open bracket opens a new entity, first
committing a pending nonempty one; every other line goes to the
field-and-terminator part. -/
def step (s : PState) (line : Chars) : PState :=
  match itemNameMatch line with
  | some n =>
    if line.count '[' = 1 then
      { items := commitIfPending s, curName := some n, curData := [] }
    else stepField s line
  | none => stepField s line

/-- Python split on the newline character. -/
def splitLines : Chars → List Chars
  | [] => [[]]
  | c :: rest =>
    if c = '\n' then [] :: splitLines rest
    else
      match splitLines rest with
      | h :: t => (c :: h) :: t
      | [] => [c] :: []

def initState : PState := { items := [], curName := none, curData := [] }

/-- The whole line loop over a list of lines. -/
def parseLines (ls : List Chars) : PState := ls.foldl step initState

/-- Result of the core parse: the realm name and the entity map. -/
structure ParsedDb where
  realm : Option Chars
  items : Items
  deriving DecidableEq

/-- The core parse over the file contents: locate the literal, extract
the realm by the first key-and-brace occurrence, and run the line loop.
A missing or out-of-order marker pair yields the empty result. -/
def parse_lua_file (content : Chars) : Option ParsedDb :=
  match locate content with
  | none => none
  | some lua =>
    some { realm := searchKeyBrace lua, items := (parseLines (splitLines lua)).items }

/-- History-key filter of the projector: starts with the letter H and
the remainder is a nonempty digit string. -/
def isHistKey : Chars → Bool
  | 'H' :: rest => decide (rest ≠ []) && rest.all isDigitChar
  | _ => false

/-- Projected record shape written to the interchange output. -/
structure ItemEntry where
  name : Chars
  lastScan : Nat
  mr : Nat
  history : Fields
  deriving DecidableEq

/-- Record projector for one entity: fixed fields default to zero when
absent, history keeps exactly the keys passing the history filter, in
accumulator order. -/
def projectItem (nm : Chars) (d : Fields) : ItemEntry :=
  { name := nm,
    lastScan := (lookupA lastScanKey d).getD 0,
    mr := (lookupA mrKey d).getD 0,
    history := d.filter (fun kv => isHistKey kv.1) }

/-- Shape of the serialized output of the main routine. -/
structure Output where
  realm : Option Chars
  items : List ItemEntry
  deriving DecidableEq

/-- End-to-end pipeline of the main routine: parse, then project every
committed entity in insertion order. -/
def mainOutput (content : Chars) : Option Output :=
  (parse_lua_file content).map
    (fun db => { realm := db.realm, items := db.items.map (fun kv => projectItem kv.1 kv.2) })

/-- Gold component of the currency decomposition. -/
def goldPart (c : Nat) : Nat := c / 10000

/-- Silver component of the currency decomposition. -/
def silverPart (c : Nat) : Nat := c % 10000 / 100

/-- Copper remainder of the currency decomposition. -/
def copperPart (c : Nat) : Nat := c % 100

/-- Display string of the currency formatter, built from the three
components with the tier-dropping branches of the source. -/
def convert_copper_to_gold (c : Nat) : Chars :=
  if 0 < goldPart c then
    Nat.toDigits 10 (goldPart c) ++ ('g' :: ' ' :: [])
      ++ Nat.toDigits 10 (silverPart c) ++ ('s' :: ' ' :: [])
      ++ Nat.toDigits 10 (copperPart c) ++ ['c']
  else if 0 < silverPart c then
    Nat.toDigits 10 (silverPart c) ++ ('s' :: ' ' :: [])
      ++ Nat.toDigits 10 (copperPart c) ++ ['c']
  else
    Nat.toDigits 10 (copperPart c) ++ ['c']

/-- Name of an entity-open line, when the line is one: the anchored
match must succeed and the line must contain exactly one open bracket. -/
def openNameOf (line : Chars) : Option Chars :=
  if line.count '[' = 1 then itemNameMatch line else none

/-- Boolean entity-open classification of a line. -/
def isOpenLineB (line : Chars) : Bool :=
  (itemNameMatch line).isSome && decide (line.count '[' = 1)

/-- Fields accumulated by the extractor over a run of lines, starting
from the empty accumulator of a freshly opened entity. -/
def accumFields (F : List Chars) : Fields := F.foldl fieldApply []

/-- Key shape demanded by the specification for dynamic series fields:
one or more letters followed by one or more digits and nothing else. -/
def specSeriesKey (k : Chars) : Bool :=
  decide (k.takeWhile Char.isAlpha ≠ []) && decide (k.dropWhile Char.isAlpha ≠ []) &&
    (k.dropWhile Char.isAlpha).all isDigitChar

/-- Brace-depth update for one character. -/
def braceDepthStep (d : Nat) (c : Char) : Nat :=
  if c = '\x7b' then d + 1 else if c = '\x7d' then d - 1 else d

/-- Scan for a key-and-brace occurrence restricted to the outermost
nesting level, tracking brace depth. -/
def specScopeScan : Chars → Nat → Option Chars
  | [], _ => none
  | c :: rest, d =>
    if d = 1 then
      match keyBraceAt (c :: rest) with
      | some n => some n
      | none => specScopeScan rest (braceDepthStep d c)
    else specScopeScan rest (braceDepthStep d c)

/-- Following the specification's words for the scope name: the first
occurrence, in the located literal, of a quoted-string key immediately
followed by an opening-brace token at the outermost nesting level. -/
def specScopeName (lua : Chars) : Option Chars := specScopeScan lua 0

/-- A history field line as written in the saved-variables file: the
bracket-quoted key H followed by the digits ds, the assignment, the
digit value vs and a trailing comma. -/
def histLine (ds vs : Chars) : Chars :=
  '[' :: '"' :: 'H' :: (ds ++ eqAssign ++ vs ++ [','])

/-! ### Concrete inputs used by the claim theorems -/

/-- Minimal literal of the specification's concrete scenario. -/
def exC5 : Chars := ("AUCTIONATOR_PRICE_DATABASE = \x7b\n [\"Realm1\"] = \x7b\n  [\"Widget\"] = \x7b\n   [\"lastScan\"] = 12345,\n   [\"mr\"] = 5000,\n   [\"H5553\"] = 4800,\n   [\"H5554\"] = 5100,\n  \x7d,\n \x7d,\n\x7d\nAUCTIONATOR_LAST_SCAN_TIME = 99999").toList

/-- Input whose entity carries a field line with key A123: the key
matches the letters-then-digits shape but not the literal H prefix. -/
def exC1 : Chars := ("AUCTIONATOR_PRICE_DATABASE = \x7b\n [\"R\"] = \x7b\n  [\"Widget\"] = \x7b\n   [\"A123\"] = 456,\n   [\"mr\"] = 7,\n  \x7d,\n \x7d,\n\x7d\nAUCTIONATOR_LAST_SCAN_TIME = 1").toList

/-- Input whose single committed entity has only a lastScan field. -/
def exC6 : Chars := ("AUCTIONATOR_PRICE_DATABASE = \x7b\n [\"R6\"] = \x7b\n  [\"Gadget\"] = \x7b\n   [\"lastScan\"] = 1,\n  \x7d,\n \x7d,\n\x7d\nAUCTIONATOR_LAST_SCAN_TIME = 2").toList

/-- Input whose textually first key-and-brace occurrence sits inside an
anonymous nested brace, one level below the outermost level, while a
later key-and-brace occurrence is at the outermost level. -/
def exC7 : Chars := ("AUCTIONATOR_PRICE_DATABASE = \x7b\n \x7b\n  [\"a\"] = \x7b\n  \x7d,\n \x7d,\n [\"b\"] = \x7b\n  [\"mr\"] = 2,\n \x7d,\n\x7d\nAUCTIONATOR_LAST_SCAN_TIME = 9").toList

/-- The literal located inside exC7. -/
def exC7lua : Chars := ("\x7b\n \x7b\n  [\"a\"] = \x7b\n  \x7d,\n \x7d,\n [\"b\"] = \x7b\n  [\"mr\"] = 2,\n \x7d,\n\x7d").toList

/-- Input for the C2 witness: the realm-level pseudo-entity R is opened
and then closed with zero collected fields by the re-open line for A;
entity A collects one field and is closed by the re-open line for B;
entity B is closed by a terminator line.  Both close modes of the claim
(terminator and re-open) occur. -/
def exC2b : Chars := ("AUCTIONATOR_PRICE_DATABASE = \x7b\n [\"R\"] = \x7b\n  [\"A\"] = \x7b\n   [\"mr\"] = 5,\n  [\"B\"] = \x7b\n   [\"mr\"] = 6,\n  \x7d,\n \x7d,\n\x7d\nAUCTIONATOR_LAST_SCAN_TIME = 1").toList

/-- The literal located inside exC2b. -/
def exC2blua : Chars := ("\x7b\n [\"R\"] = \x7b\n  [\"A\"] = \x7b\n   [\"mr\"] = 5,\n  [\"B\"] = \x7b\n   [\"mr\"] = 6,\n  \x7d,\n \x7d,\n\x7d").toList

/-- Input for the C3 witness: the entity name A is opened twice, with
different mr values. -/
def exC3 : Chars := ("AUCTIONATOR_PRICE_DATABASE = \x7b\n [\"A\"] = \x7b\n  [\"mr\"] = 5,\n \x7d,\n [\"A\"] = \x7b\n  [\"mr\"] = 9,\n \x7d,\n\x7d\nAUCTIONATOR_LAST_SCAN_TIME = 1").toList

/-- The literal located inside exC3. -/
def exC3lua : Chars := ("\x7b\n [\"A\"] = \x7b\n  [\"mr\"] = 5,\n \x7d,\n [\"A\"] = \x7b\n  [\"mr\"] = 9,\n \x7d,\n\x7d").toList

/-- Input for the C9 witness: entity C collects one field but its block
is closed only by a lone brace without a comma, so it stays open to the
end of the literal. -/
def exC9 : Chars := ("AUCTIONATOR_PRICE_DATABASE = \x7b\n [\"A\"] = \x7b\n  [\"mr\"] = 5,\n \x7d,\n [\"C\"] = \x7b\n  [\"mr\"] = 3,\n \x7d\n\x7d\nAUCTIONATOR_LAST_SCAN_TIME = 1").toList

/-- The literal located inside exC9. -/
def exC9lua : Chars := ("\x7b\n [\"A\"] = \x7b\n  [\"mr\"] = 5,\n \x7d,\n [\"C\"] = \x7b\n  [\"mr\"] = 3,\n \x7d\n\x7d").toList

/-- Input for the C4 witness: neither marker occurs. -/
def exC4w : Chars := ("no markers here").toList

/-! ### Claim theorems on concrete inputs -/

set_option maxRecDepth 8000 in
/-- C5: on the specification's minimal literal, the projected output is
exactly the realm Realm1 and the single item Widget with lastScan 12345,
mr 5000 and history mapping H5553 to 4800 and H5554 to 5100. -/
theorem C5_concrete_scenario :
    mainOutput exC5 =
      some { realm := some (("Realm1").toList),
             items := [{ name := ("Widget").toList, lastScan := 12345, mr := 5000,
                         history := [(("H5553").toList, 4800), (("H5554").toList, 5100)] }] } := by
  rfl

/-- C10: for every non-negative integer count of smallest-unit currency,
the three components of the currency formatter decompose it exactly in
base one hundred and base ten thousand, with silver and copper below one
hundred. -/
theorem C10_currency_decomposition (c : Nat) :
    c = 10000 * goldPart c + 100 * silverPart c + copperPart c ∧
      silverPart c < 100 ∧ copperPart c < 100 := by
  unfold goldPart silverPart copperPart
  omega

set_option maxRecDepth 8000 in
/-- C1 counterexample: the field line with key A123 and value 456,
parsed while the entity Widget is open, satisfies the letters-then-digits
key shape of the claim, yet the projected record's history map is empty:
the extractor only recognizes the literal prefix H, so the claim's
universally quantified statement fails on this input. -/
theorem C1_counterexample :
    specSeriesKey (("A123").toList) = true ∧
      mainOutput exC1 =
        some { realm := some (("R").toList),
               items := [{ name := ("Widget").toList, lastScan := 0, mr := 7,
                           history := [] }] } := by
  exact ⟨rfl, rfl⟩

set_option maxRecDepth 8000 in
/-- C7 counterexample: on exC7 the located literal's first quoted key
immediately followed by an open brace at the outermost nesting level is
b, but the code takes the textually first such occurrence anywhere, the
nested key a, so the returned realm differs from the claim's value. -/
theorem C7_counterexample :
    locate exC7 = some exC7lua ∧
      specScopeName exC7lua = some (("b").toList) ∧
      (parse_lua_file exC7).map (fun db => db.realm) = some (some (("a").toList)) ∧
      some (("a").toList) ≠ some (("b").toList) := by
  refine ⟨rfl, rfl, rfl, ?_⟩
  decide

/-! ### Helper lemmas about the scanning primitives -/

theorem begins_of_append (p r : Chars) : begins p (p ++ r) = true := by
  induction p with
  | nil => rfl
  | cons c ps ih => simpa [begins] using ih

theorem begins_exists {p s : Chars} (h : begins p s = true) : ∃ r, s = p ++ r := by
  induction p generalizing s with
  | nil => exact ⟨s, rfl⟩
  | cons c ps ih =>
    cases s with
    | nil => simp [begins] at h
    | cons x xs =>
      by_cases hc : c = x
      · subst hc
        simp only [begins, if_pos rfl] at h
        obtain ⟨r, hr⟩ := ih h
        exact ⟨r, by simp [hr]⟩
      · simp [begins, hc] at h

theorem begins_length {p s : Chars} (h : begins p s = true) : p.length ≤ s.length := by
  obtain ⟨r, rfl⟩ := begins_exists h
  simp

theorem stripLit_of_append (p r : Chars) : stripLit p (p ++ r) = some r := by
  induction p with
  | nil => rfl
  | cons c ps ih => simpa [stripLit] using ih

theorem stripLit_exists {p s r : Chars} (h : stripLit p s = some r) : s = p ++ r := by
  induction p generalizing s with
  | nil => simpa [stripLit] using h
  | cons c ps ih =>
    cases s with
    | nil => simp [stripLit] at h
    | cons x xs =>
      by_cases hc : c = x
      · subst hc
        simp only [stripLit, if_pos rfl] at h
        simpa using ih h
      · simp [stripLit, hc] at h

theorem splitAtQuote_sound {s a b : Chars} (h : splitAtQuote s = some (a, b)) :
    s = a ++ '"' :: b ∧ '"' ∉ a := by
  induction s generalizing a b with
  | nil => simp [splitAtQuote] at h
  | cons c rest ih =>
    by_cases hc : c = '"'
    · subst hc
      simp [splitAtQuote] at h
      obtain ⟨ha, hb⟩ := h
      subst ha
      subst hb
      simp
    · cases hsp : splitAtQuote rest with
      | none => simp [splitAtQuote, hc, hsp] at h
      | some ab =>
        obtain ⟨a', b'⟩ := ab
        simp [splitAtQuote, hc, hsp] at h
        obtain ⟨ha, hb⟩ := h
        subst hb
        obtain ⟨hr, hna⟩ := ih hsp
        subst hr
        refine ⟨by simp [← ha], ?_⟩
        intro hm
        rw [← ha] at hm
        rcases List.mem_cons.mp hm with he | hm'
        · exact hc he.symm
        · exact hna hm'

theorem splitAtQuote_complete {a : Chars} (b : Chars) (ha : '"' ∉ a) :
    splitAtQuote (a ++ '"' :: b) = some (a, b) := by
  induction a with
  | nil => simp [splitAtQuote]
  | cons c cs ih =>
    have hc : ¬ c = '"' := fun h => ha (by simp [h])
    have ih' := ih (fun h => ha (List.mem_cons_of_mem _ h))
    simp [splitAtQuote, hc, ih']

theorem takeWhile_all_append {p : Char → Bool} {a : Chars} (x : Char) (r : Chars)
    (ha : ∀ c ∈ a, p c = true) (hx : p x = false) :
    (a ++ x :: r).takeWhile p = a := by
  induction a with
  | nil => simp [List.takeWhile_cons, hx]
  | cons c cs ih =>
    have hc := ha c (List.mem_cons_self c cs)
    have ih' := ih (fun c hm => ha c (List.mem_cons_of_mem _ hm))
    simp [List.takeWhile_cons, hc, ih']

theorem dropWhile_all_append {p : Char → Bool} {a : Chars} (x : Char) (r : Chars)
    (ha : ∀ c ∈ a, p c = true) (hx : p x = false) :
    (a ++ x :: r).dropWhile p = x :: r := by
  induction a with
  | nil => simp [List.dropWhile_cons, hx]
  | cons c cs ih =>
    have hc := ha c (List.mem_cons_self c cs)
    have ih' := ih (fun c hm => ha c (List.mem_cons_of_mem _ hm))
    simp [List.dropWhile_cons, hc, ih']

theorem dropTrailing_cons {p : Char → Bool} {c : Char} (l : Chars) (hc : p c = false) :
    dropTrailing p (c :: l) = c :: dropTrailing p l := by
  have key : ∀ a : Chars, (a ++ [c]).dropWhile p
      = if a.dropWhile p = [] then [c] else a.dropWhile p ++ [c] := by
    intro a
    induction a with
    | nil => simp [List.dropWhile_cons, hc]
    | cons y ys ih =>
      by_cases hy : p y = true
      · simpa [List.dropWhile_cons, hy] using ih
      · simp [List.dropWhile_cons, hy]
  unfold dropTrailing
  rw [List.reverse_cons, key]
  by_cases h : l.reverse.dropWhile p = [] <;> simp [h]

theorem dropTrailing_decomp (p : Char → Bool) (l : Chars) :
    ∃ w, l = dropTrailing p l ++ w ∧ ∀ c ∈ w, p c = true := by
  refine ⟨(l.reverse.takeWhile p).reverse, ?_, ?_⟩
  · unfold dropTrailing
    conv_lhs => rw [← l.reverse_reverse]
    conv_lhs => rw [← List.takeWhile_append_dropWhile (p := p) (l := l.reverse)]
    rw [List.reverse_append]
  · intro c hc
    exact List.mem_takeWhile_imp (List.mem_reverse.mp hc)

/-! ### Terminator lines and field extraction on them -/

theorem isTermLine_decomp {l : Chars} (h : isTermLine l = true) :
    ∃ w1 w2, l = w1 ++ '\x7d' :: ',' :: w2 ∧
      (∀ c ∈ w1, isSpaceChar c = true) ∧ (∀ c ∈ w2, isSpaceChar c = true) := by
  have hs : stripChars l = termChars := by simpa [isTermLine] using h
  obtain ⟨w2, hw2, hw2p⟩ := dropTrailing_decomp isSpaceChar (l.dropWhile isSpaceChar)
  refine ⟨l.takeWhile isSpaceChar, w2, ?_, ?_, hw2p⟩
  · conv_lhs => rw [← List.takeWhile_append_dropWhile (p := isSpaceChar) (l := l)]
    rw [hw2]
    unfold stripChars at hs
    rw [hs]
    simp [termChars]
  · intro c hc
    exact List.mem_takeWhile_imp hc

theorem isTermLine_no_bracket {l : Chars} (h : isTermLine l = true) :
    ∀ c ∈ l, c ≠ '[' := by
  obtain ⟨w1, w2, rfl, h1, h2⟩ := isTermLine_decomp h
  intro c hc he
  subst he
  rcases List.mem_append.mp hc with hm | hm
  · have := h1 _ hm
    simp [isSpaceChar] at this
  · rcases List.mem_cons.mp hm with he' | hm'
    · exact absurd he' (by decide)
    · rcases List.mem_cons.mp hm' with he' | hm''
      · exact absurd he' (by decide)
      · have := h2 _ hm''
        simp [isSpaceChar] at this

theorem itemNameMatch_of_term {l : Chars} (h : isTermLine l = true) :
    itemNameMatch l = none := by
  obtain ⟨w1, w2, rfl, h1, _⟩ := isTermLine_decomp h
  unfold itemNameMatch
  rw [dropWhile_all_append _ _ h1 (by decide)]
  rfl

theorem matchFixedAt_none_head {key : Chars} {c : Char} (s : Chars) (hc : c ≠ '[') :
    matchFixedAt key (c :: s) = none := by
  have h0 : stripLit (fixedPat key) (c :: s) = none := by
    unfold fixedPat
    simp only [stripLit]
    rw [if_neg (fun he => hc he.symm)]
  simp [matchFixedAt, h0]

theorem searchFixed_cons_none {key c s} (h : matchFixedAt key (c :: s) = none) :
    searchFixed key (c :: s) = searchFixed key s := by
  simp [searchFixed, h]

theorem searchFixed_none_all {key l : Chars} (h : ∀ c ∈ l, c ≠ '[') :
    searchFixed key l = none := by
  induction l with
  | nil => rfl
  | cons c cs ih =>
    rw [searchFixed_cons_none (matchFixedAt_none_head _ (h c (List.mem_cons_self c cs)))]
    exact ih (fun x hx => h x (List.mem_cons_of_mem _ hx))

theorem matchHistAt_none_head {c : Char} (s : Chars) (hc : c ≠ '[') :
    matchHistAt (c :: s) = none := by
  have h0 : stripLit ('[' :: '"' :: 'H' :: []) (c :: s) = none := by
    simp only [stripLit]
    rw [if_neg (fun he => hc he.symm)]
  simp [matchHistAt, h0]

theorem searchHist_cons_none {c s} (h : matchHistAt (c :: s) = none) :
    searchHist (c :: s) = searchHist s := by
  simp [searchHist, h]

theorem searchHist_none_all {l : Chars} (h : ∀ c ∈ l, c ≠ '[') :
    searchHist l = none := by
  induction l with
  | nil => rfl
  | cons c cs ih =>
    rw [searchHist_cons_none (matchHistAt_none_head _ (h c (List.mem_cons_self c cs)))]
    exact ih (fun x hx => h x (List.mem_cons_of_mem _ hx))

theorem fieldApply_no_bracket {d : Fields} {l : Chars} (h : ∀ c ∈ l, c ≠ '[') :
    fieldApply d l = d := by
  unfold fieldApply
  rw [searchFixed_none_all h, searchFixed_none_all h, searchHist_none_all h]

theorem fieldApply_of_term {d : Fields} {l : Chars} (h : isTermLine l = true) :
    fieldApply d l = d :=
  fieldApply_no_bracket (isTermLine_no_bracket h)

/-! ### Association-list lemmas -/

theorem lookupA_insert_self {α : Type} (k : Chars) (v : α) (l : List (Chars × α)) :
    lookupA k (insertAssoc k v l) = some v := by
  induction l with
  | nil => simp [insertAssoc, lookupA]
  | cons p t ih =>
    obtain ⟨k', v'⟩ := p
    by_cases h : k' = k <;> simp [insertAssoc, lookupA, h, ih]

theorem lookupA_insert_ne {α : Type} {k k' : Chars} (v : α) (l : List (Chars × α))
    (h : k' ≠ k) : lookupA k (insertAssoc k' v l) = lookupA k l := by
  induction l with
  | nil => simp [insertAssoc, lookupA, h]
  | cons p t ih =>
    obtain ⟨a, b⟩ := p
    by_cases ha : a = k'
    · subst ha
      simp [insertAssoc, lookupA, h]
    · by_cases hak : a = k <;> simp [insertAssoc, lookupA, ha, hak, ih, Ne.symm h]

theorem keys_insert_subset {α : Type} (k : Chars) (v : α) (l : List (Chars × α)) :
    ∀ x, x ∈ (insertAssoc k v l).map Prod.fst → x ∈ l.map Prod.fst ∨ x = k := by
  induction l with
  | nil =>
    intro x hx
    simp only [insertAssoc, List.map_cons, List.map_nil, List.mem_singleton] at hx
    exact Or.inr hx
  | cons p t ih =>
    obtain ⟨a, b⟩ := p
    intro x hx
    by_cases ha : a = k
    · simp only [insertAssoc, if_pos ha, List.map_cons, List.mem_cons] at hx
      rcases hx with he | hm
      · exact Or.inr (he.trans ha)
      · exact Or.inl (by simp only [List.map_cons, List.mem_cons]; exact Or.inr hm)
    · simp only [insertAssoc, if_neg ha, List.map_cons, List.mem_cons] at hx
      rcases hx with he | hm
      · exact Or.inl (by simp only [List.map_cons, List.mem_cons]; exact Or.inl he)
      · rcases ih x hm with hm' | he'
        · exact Or.inl (by simp only [List.map_cons, List.mem_cons]; exact Or.inr hm')
        · exact Or.inr he'

theorem nodup_keys_insert {α : Type} (k : Chars) (v : α) {l : List (Chars × α)}
    (h : (l.map Prod.fst).Nodup) : ((insertAssoc k v l).map Prod.fst).Nodup := by
  induction l with
  | nil =>
    simp only [insertAssoc, List.map_cons, List.map_nil]
    exact List.nodup_singleton k
  | cons p t ih =>
    obtain ⟨a, b⟩ := p
    rw [List.map_cons, List.nodup_cons] at h
    obtain ⟨hna, hnt⟩ := h
    by_cases ha : a = k
    · subst ha
      have heq : insertAssoc a v ((a, b) :: t) = (a, v) :: t := by
        simp [insertAssoc]
      rw [heq, List.map_cons, List.nodup_cons]
      exact ⟨hna, hnt⟩
    · simp only [insertAssoc, if_neg ha, List.map_cons, List.nodup_cons]
      refine ⟨?_, ih hnt⟩
      intro hx
      rcases keys_insert_subset k v t a hx with hm | he
      · exact hna hm
      · exact ha he

theorem lookupA_none_iff {α : Type} (k : Chars) (l : List (Chars × α)) :
    lookupA k l = none ↔ k ∉ l.map Prod.fst := by
  induction l with
  | nil => simp [lookupA]
  | cons p t ih =>
    obtain ⟨a, b⟩ := p
    by_cases ha : a = k
    · subst ha
      have heq : lookupA a ((a, b) :: t) = some b := by
        simp [lookupA]
      rw [heq, List.map_cons]
      constructor
      · intro h
        exact Option.noConfusion h
      · intro h
        exact absurd (List.mem_cons_self a _) h
    · simp only [lookupA, if_neg ha, List.map_cons, List.mem_cons, ih]
      constructor
      · intro h hm
        rcases hm with he | hm'
        · exact ha he.symm
        · exact h hm'
      · intro h hm'
        exact h (Or.inr hm')

/-! ### Step lemmas for the line loop -/

theorem openNameOf_some_iff {line : Chars} {n : Chars} :
    openNameOf line = some n ↔ itemNameMatch line = some n ∧ line.count '[' = 1 := by
  unfold openNameOf
  by_cases h : line.count '[' = 1 <;> simp [h]

theorem step_open {s : PState} {line n : Chars} (h : openNameOf line = some n) :
    step s line = { items := commitIfPending s, curName := some n, curData := [] } := by
  obtain ⟨hm, hc⟩ := openNameOf_some_iff.mp h
  simp [step, hm, hc]

theorem step_not_open {s : PState} {line : Chars} (h : openNameOf line = none) :
    step s line = stepField s line := by
  unfold openNameOf at h
  by_cases hc : line.count '[' = 1
  · rw [if_pos hc] at h
    simp [step, h]
  · cases hm : itemNameMatch line with
    | none => simp [step, hm]
    | some m => simp [step, hm, hc]

theorem stepField_closed {s : PState} (line : Chars) (h : s.curName = none) :
    stepField s line = s := by
  unfold stepField
  rw [h]

theorem stepField_mid {s : PState} {cn : Chars} {line : Chars} (h : s.curName = some cn)
    (ht : isTermLine line = false) :
    stepField s line = { items := s.items, curName := some cn,
                         curData := fieldApply s.curData line } := by
  unfold stepField
  rw [h]
  simp [ht]

theorem stepField_term {s : PState} {cn : Chars} {line : Chars} (h : s.curName = some cn)
    (ht : isTermLine line = true) :
    stepField s line =
      { items := if fieldApply s.curData line = [] then s.items
                 else insertAssoc cn (fieldApply s.curData line) s.items,
        curName := none, curData := [] } := by
  unfold stepField
  rw [h]
  simp [ht]

theorem step_of_term {s : PState} {cn : Chars} {line : Chars} (h : s.curName = some cn)
    (ht : isTermLine line = true) :
    step s line =
      { items := if s.curData = [] then s.items else insertAssoc cn s.curData s.items,
        curName := none, curData := [] } := by
  have hnm := itemNameMatch_of_term ht
  have hno : openNameOf line = none := by unfold openNameOf; simp [hnm]
  rw [step_not_open hno, stepField_term h ht, fieldApply_of_term ht]

theorem foldl_fields :
    ∀ (F : List Chars) (s : PState) (cn : Chars),
      (∀ l ∈ F, openNameOf l = none ∧ isTermLine l = false) →
      s.curName = some cn →
      List.foldl step s F =
        { items := s.items, curName := some cn, curData := F.foldl fieldApply s.curData } := by
  intro F
  induction F with
  | nil =>
    intro s cn _ h
    cases s with
    | mk it nm dt =>
      simp only [List.foldl_nil]
      simp at h
      simp [h]
  | cons l F ih =>
    intro s cn hF h
    obtain ⟨ho, ht⟩ := hF l (List.mem_cons_self l F)
    rw [List.foldl_cons, List.foldl_cons, step_not_open ho, stepField_mid h ht]
    exact ih _ cn (fun x hx => hF x (List.mem_cons_of_mem _ hx)) rfl

theorem lookupA_commitIfPending {s : PState} {n : Chars} (h : s.curName ≠ some n) :
    lookupA n (commitIfPending s) = lookupA n s.items := by
  unfold commitIfPending
  cases hc : s.curName with
  | none => rfl
  | some cn =>
    have hne : cn ≠ n := fun he => h (by rw [hc, he])
    by_cases hd : s.curData = [] <;> simp [hd, lookupA_insert_ne _ _ hne]

theorem foldl_stable {n : Chars} :
    ∀ (L : List Chars) (s : PState),
      s.curName ≠ some n →
      (∀ l ∈ L, openNameOf l ≠ some n) →
      (List.foldl step s L).curName ≠ some n ∧
        lookupA n (List.foldl step s L).items = lookupA n s.items := by
  intro L
  induction L with
  | nil =>
    intro s h _
    exact ⟨h, rfl⟩
  | cons l L ih =>
    intro s h hL
    have hl := hL l (List.mem_cons_self l L)
    have hL' := fun x hx => hL x (List.mem_cons_of_mem _ hx)
    rw [List.foldl_cons]
    cases ho : openNameOf l with
    | some m =>
      have hmn : m ≠ n := fun he => hl (by rw [ho, he])
      have hs := step_open (s := s) ho
      have hm : (step s l).curName ≠ some n := by
        rw [hs]
        simp [hmn]
      obtain ⟨h1, h2⟩ := ih (step s l) hm hL'
      refine ⟨h1, ?_⟩
      rw [h2, hs]
      exact lookupA_commitIfPending h
    | none =>
      have hs := step_not_open (s := s) ho
      cases hc : s.curName with
      | none =>
        rw [hs, stepField_closed _ hc]
        exact ih s h hL'
      | some cn =>
        have hcn : cn ≠ n := fun he => h (by rw [hc, he])
        by_cases ht : isTermLine l = true
        · have hsf := stepField_term hc ht
          have hm : (step s l).curName ≠ some n := by
            rw [hs, hsf]
            simp
          obtain ⟨h1, h2⟩ := ih _ hm hL'
          refine ⟨h1, ?_⟩
          rw [h2, hs, hsf]
          by_cases hd : fieldApply s.curData l = [] <;>
            simp [hd, lookupA_insert_ne _ _ hcn]
        · have ht' : isTermLine l = false := by simpa using ht
          have hsf := stepField_mid hc ht'
          have hm : (step s l).curName ≠ some n := by
            rw [hs, hsf]
            simp [hcn]
          obtain ⟨h1, h2⟩ := ih _ hm hL'
          exact ⟨h1, by rw [h2, hs, hsf]⟩

theorem commit_nodup {s : PState} (h : (s.items.map Prod.fst).Nodup) :
    ((commitIfPending s).map Prod.fst).Nodup := by
  unfold commitIfPending
  cases s.curName with
  | none => exact h
  | some cn =>
    by_cases hd : s.curData = []
    · simpa [hd] using h
    · simpa [hd] using nodup_keys_insert cn s.curData h

theorem step_nodup {s : PState} (l : Chars)
    (h : (s.items.map Prod.fst).Nodup) : (((step s l).items).map Prod.fst).Nodup := by
  cases ho : openNameOf l with
  | some m =>
    rw [step_open ho]
    exact commit_nodup h
  | none =>
    rw [step_not_open ho]
    cases hc : s.curName with
    | none =>
      rw [stepField_closed _ hc]
      exact h
    | some cn =>
      by_cases ht : isTermLine l = true
      · rw [stepField_term hc ht]
        by_cases hd : fieldApply s.curData l = []
        · simpa [hd] using h
        · simpa [hd] using nodup_keys_insert cn (fieldApply s.curData l) h
      · have ht' : isTermLine l = false := by simpa using ht
        rw [stepField_mid hc ht']
        exact h

theorem foldl_nodup :
    ∀ (L : List Chars) (s : PState), (s.items.map Prod.fst).Nodup →
      ((List.foldl step s L).items.map Prod.fst).Nodup := by
  intro L
  induction L with
  | nil => intro s h; exact h
  | cons l L ih =>
    intro s h
    rw [List.foldl_cons]
    exact ih _ (step_nodup l h)

theorem foldl_block {s : PState} {o t : Chars} {F : List Chars} {n : Chars}
    (ho : openNameOf o = some n)
    (hF : ∀ l ∈ F, openNameOf l = none ∧ isTermLine l = false)
    (ht : isTermLine t = true) :
    List.foldl step s (o :: (F ++ [t])) =
      { items := if accumFields F = [] then commitIfPending s
                 else insertAssoc n (accumFields F) (commitIfPending s),
        curName := none, curData := [] } := by
  rw [List.foldl_cons, step_open ho, List.foldl_append]
  rw [foldl_fields F _ n hF rfl]
  simp only [List.foldl_cons, List.foldl_nil]
  rw [step_of_term rfl ht]
  rfl

theorem foldl_block_open {s : PState} {o t : Chars} {F : List Chars} {n m : Chars}
    (ho : openNameOf o = some n)
    (hF : ∀ l ∈ F, openNameOf l = none ∧ isTermLine l = false)
    (ht : openNameOf t = some m) :
    List.foldl step s (o :: (F ++ [t])) =
      { items := if accumFields F = [] then commitIfPending s
                 else insertAssoc n (accumFields F) (commitIfPending s),
        curName := some m, curData := [] } := by
  rw [List.foldl_cons, step_open ho, List.foldl_append]
  rw [foldl_fields F _ n hF rfl]
  simp only [List.foldl_cons, List.foldl_nil]
  rw [step_open ht]
  rfl

theorem parse_items {content lua : Chars} (h : locate content = some lua) :
    parse_lua_file content =
      some { realm := searchKeyBrace lua,
             items := (parseLines (splitLines lua)).items } := by
  unfold parse_lua_file
  rw [h]

/-- C2: in a well-formed literal, an entity block for name n whose body
collects at least one field is present in the output map under n (and
the map's keys are pairwise distinct, so it appears exactly once), while
a block whose body collects zero fields leaves n absent from the output,
provided no other line of the literal opens n.  The block's close is
either a terminator line or a re-open line for another entity name, the
two close modes of the line loop. -/
theorem C2_committed_entities (content lua : Chars) (P F S : List Chars) (o t n : Chars)
    (hloc : locate content = some lua)
    (hsplit : splitLines lua = P ++ o :: (F ++ t :: S))
    (ho : openNameOf o = some n)
    (hF : ∀ l ∈ F, openNameOf l = none ∧ isTermLine l = false)
    (ht : isTermLine t = true ∨ ∃ m, openNameOf t = some m ∧ m ≠ n)
    (hP : ∀ l ∈ P, openNameOf l ≠ some n)
    (hS : ∀ l ∈ S, openNameOf l ≠ some n) :
    ∃ db, parse_lua_file content = some db ∧
      (db.items.map Prod.fst).Nodup ∧
      (accumFields F ≠ [] → lookupA n db.items = some (accumFields F)) ∧
      (accumFields F = [] → lookupA n db.items = none) := by
  have hP0 : (initState).curName ≠ some n := by simp [initState]
  obtain ⟨hPc, hPl⟩ := foldl_stable P initState hP0 hP
  set sP := List.foldl step initState P with hsP
  have hPnone : lookupA n sP.items = none := by
    rw [hPl]
    rfl
  have hcommit : lookupA n (commitIfPending sP) = none := by
    rw [lookupA_commitIfPending hPc]
    exact hPnone
  have hlist : P ++ o :: (F ++ t :: S) = (P ++ (o :: (F ++ [t]))) ++ S := by
    simp
  have hfold : parseLines (splitLines lua)
      = List.foldl step (List.foldl step sP (o :: (F ++ [t]))) S := by
    unfold parseLines
    rw [hsplit, hlist, List.foldl_append, List.foldl_append]
  obtain ⟨cn', hcn', hblock⟩ :
      ∃ cn', cn' ≠ some n ∧
        List.foldl step sP (o :: (F ++ [t]))
          = { items := if accumFields F = [] then commitIfPending sP
                       else insertAssoc n (accumFields F) (commitIfPending sP),
              curName := cn', curData := [] } := by
    rcases ht with ht | ⟨m, hm, hmn⟩
    · exact ⟨none, by simp, foldl_block ho hF ht⟩
    · exact ⟨some m, by simp [hmn], foldl_block_open ho hF hm⟩
  rw [hblock] at hfold
  have hnodup : ((parseLines (splitLines lua)).items.map Prod.fst).Nodup := by
    unfold parseLines
    exact foldl_nodup _ _ (by simp [initState])
  refine ⟨_, parse_items hloc, hnodup, ?_, ?_⟩
  · intro hA
    obtain ⟨_, hSl⟩ := foldl_stable S
      ({ items := if accumFields F = [] then commitIfPending sP
                  else insertAssoc n (accumFields F) (commitIfPending sP),
         curName := cn', curData := [] }) hcn' hS
    show lookupA n (parseLines (splitLines lua)).items = some (accumFields F)
    rw [hfold, hSl]
    show lookupA n (if accumFields F = [] then commitIfPending sP
        else insertAssoc n (accumFields F) (commitIfPending sP)) = some (accumFields F)
    rw [if_neg hA]
    exact lookupA_insert_self n (accumFields F) (commitIfPending sP)
  · intro hA
    obtain ⟨_, hSl⟩ := foldl_stable S
      ({ items := if accumFields F = [] then commitIfPending sP
                  else insertAssoc n (accumFields F) (commitIfPending sP),
         curName := cn', curData := [] }) hcn' hS
    show lookupA n (parseLines (splitLines lua)).items = none
    rw [hfold, hSl]
    show lookupA n (if accumFields F = [] then commitIfPending sP
        else insertAssoc n (accumFields F) (commitIfPending sP)) = none
    rw [if_pos hA]
    exact hcommit

/-- C3: when the same entity name n is opened twice, each occurrence
closed after collecting at least one field, the output holds exactly one
record for n and its fields are exactly those accumulated by the second
occurrence: the later commit overwrites the earlier one. -/
theorem C3_reopen_overwrites (content lua : Chars) (P M S F1 F2 : List Chars)
    (o t o2 t2 n : Chars)
    (hloc : locate content = some lua)
    (hsplit : splitLines lua = P ++ o :: (F1 ++ t :: (M ++ o2 :: (F2 ++ t2 :: S))))
    (ho : openNameOf o = some n) (ho2 : openNameOf o2 = some n)
    (hF1 : ∀ l ∈ F1, openNameOf l = none ∧ isTermLine l = false)
    (hF2 : ∀ l ∈ F2, openNameOf l = none ∧ isTermLine l = false)
    (ht : isTermLine t = true) (ht2 : isTermLine t2 = true)
    (_hP : ∀ l ∈ P, openNameOf l ≠ some n)
    (_hM : ∀ l ∈ M, openNameOf l ≠ some n)
    (hS : ∀ l ∈ S, openNameOf l ≠ some n)
    (hA1 : accumFields F1 ≠ []) (hA2 : accumFields F2 ≠ []) :
    ∃ db, parse_lua_file content = some db ∧
      (db.items.map Prod.fst).Nodup ∧
      lookupA n db.items = some (accumFields F2) := by
  set sP := List.foldl step initState P with hsP
  have hlist : P ++ o :: (F1 ++ t :: (M ++ o2 :: (F2 ++ t2 :: S)))
      = ((((P ++ (o :: (F1 ++ [t]))) ++ M) ++ (o2 :: (F2 ++ [t2]))) ++ S) := by
    simp
  have hfold : parseLines (splitLines lua)
      = List.foldl step (List.foldl step (List.foldl step (List.foldl step sP
          (o :: (F1 ++ [t]))) M) (o2 :: (F2 ++ [t2]))) S := by
    unfold parseLines
    rw [hsplit, hlist, List.foldl_append, List.foldl_append, List.foldl_append,
      List.foldl_append]
  rw [foldl_block ho hF1 ht, if_neg hA1] at hfold
  set sM := List.foldl step
    ({ items := insertAssoc n (accumFields F1) (commitIfPending sP),
       curName := none, curData := [] } : PState) M with hsM
  rw [foldl_block ho2 hF2 ht2, if_neg hA2] at hfold
  have hnodup : ((parseLines (splitLines lua)).items.map Prod.fst).Nodup := by
    unfold parseLines
    exact foldl_nodup _ _ (by simp [initState])
  refine ⟨_, parse_items hloc, hnodup, ?_⟩
  obtain ⟨_, hSl⟩ := foldl_stable S
    ({ items := insertAssoc n (accumFields F2) (commitIfPending sM),
       curName := none, curData := [] }) (by simp) hS
  show lookupA n (parseLines (splitLines lua)).items = some (accumFields F2)
  rw [hfold, hSl]
  exact lookupA_insert_self n (accumFields F2) (commitIfPending sM)

/-- C9: an entity opened by a line for name n and never closed again (no
later line is an entity-open line and no later line strips to the
closing-brace-comma terminator) is never committed: its collected fields
stay in the loop accumulator and n is absent from the output, provided
no earlier line opens n. -/
theorem C9_open_at_end_dropped (content lua : Chars) (P T : List Chars) (o n : Chars)
    (hloc : locate content = some lua)
    (hsplit : splitLines lua = P ++ o :: T)
    (ho : openNameOf o = some n)
    (hT : ∀ l ∈ T, openNameOf l = none ∧ isTermLine l = false)
    (hP : ∀ l ∈ P, openNameOf l ≠ some n) :
    (parseLines (splitLines lua)).curName = some n ∧
    (parseLines (splitLines lua)).curData = accumFields T ∧
    ∃ db, parse_lua_file content = some db ∧ lookupA n db.items = none ∧
      ∀ out, mainOutput content = some out → ∀ e ∈ out.items, e.name ≠ n := by
  have hP0 : (initState).curName ≠ some n := by simp [initState]
  obtain ⟨hPc, hPl⟩ := foldl_stable P initState hP0 hP
  set sP := List.foldl step initState P with hsP
  have hfold : parseLines (splitLines lua) = List.foldl step (step sP o) T := by
    unfold parseLines
    rw [hsplit, List.foldl_append, List.foldl_cons]
  rw [step_open ho, foldl_fields T _ n hT rfl] at hfold
  have hitems : lookupA n (parseLines (splitLines lua)).items = none := by
    rw [hfold]
    show lookupA n (commitIfPending sP) = none
    rw [lookupA_commitIfPending hPc, hPl]
    rfl
  refine ⟨by rw [hfold], by rw [hfold]; rfl, _, parse_items hloc, hitems, ?_⟩
  intro out hout e he heq
  rw [mainOutput, parse_items hloc] at hout
  simp only [Option.map_some'] at hout
  have hout' := Option.some.inj hout
  rw [← hout'] at he
  obtain ⟨kv, hkv, hproj⟩ := List.mem_map.mp he
  have hname : e.name = kv.1 := by
    rw [← hproj]
    rfl
  have hmem : n ∈ (parseLines (splitLines lua)).items.map Prod.fst := by
    rw [← heq, hname]
    exact List.mem_map_of_mem Prod.fst hkv
  exact (lookupA_none_iff n _).mp hitems hmem

set_option maxRecDepth 8000 in
/-- Witness for C2 at the concrete input exC2b, covering both close
modes: the realm-level pseudo-entity R is closed by the re-open line for
A with zero fields and is absent, and entity A, closed by the re-open
line for B after one field, is present with exactly that field. -/
theorem C2_witness :
    (∃ db, parse_lua_file exC2b = some db ∧
      (db.items.map Prod.fst).Nodup ∧
      (accumFields ([] : List Chars) ≠ [] →
        lookupA (("R").toList) db.items = some (accumFields ([] : List Chars))) ∧
      (accumFields ([] : List Chars) = [] →
        lookupA (("R").toList) db.items = none)) ∧
    (∃ db, parse_lua_file exC2b = some db ∧
      (db.items.map Prod.fst).Nodup ∧
      (accumFields [("   [\"mr\"] = 5,").toList] ≠ [] →
        lookupA (("A").toList) db.items =
          some (accumFields [("   [\"mr\"] = 5,").toList])) ∧
      (accumFields [("   [\"mr\"] = 5,").toList] = [] →
        lookupA (("A").toList) db.items = none)) :=
  ⟨C2_committed_entities exC2b exC2blua
    [("\x7b").toList] []
    [("   [\"mr\"] = 5,").toList, ("  [\"B\"] = \x7b").toList,
      ("   [\"mr\"] = 6,").toList, ("  \x7d,").toList, (" \x7d,").toList,
      ("\x7d").toList]
    ((" [\"R\"] = \x7b").toList) (("  [\"A\"] = \x7b").toList) (("R").toList)
    (by rfl) (by rfl) (by rfl) (by decide)
    (Or.inr ⟨("A").toList, by rfl, by decide⟩)
    (by decide) (by decide),
   C2_committed_entities exC2b exC2blua
    [("\x7b").toList, (" [\"R\"] = \x7b").toList]
    [("   [\"mr\"] = 5,").toList]
    [("   [\"mr\"] = 6,").toList, ("  \x7d,").toList, (" \x7d,").toList,
      ("\x7d").toList]
    (("  [\"A\"] = \x7b").toList) (("  [\"B\"] = \x7b").toList) (("A").toList)
    (by rfl) (by rfl) (by rfl) (by decide)
    (Or.inr ⟨("B").toList, by rfl, by decide⟩)
    (by decide) (by decide)⟩

set_option maxRecDepth 8000 in
/-- Witness for C3 at the concrete input exC3: the name A is opened
twice and the output holds exactly the second occurrence's fields. -/
theorem C3_witness :
    ∃ db, parse_lua_file exC3 = some db ∧
      (db.items.map Prod.fst).Nodup ∧
      lookupA (("A").toList) db.items =
        some (accumFields [("  [\"mr\"] = 9,").toList]) :=
  C3_reopen_overwrites exC3 exC3lua
    [("\x7b").toList] [] [("\x7d").toList]
    [("  [\"mr\"] = 5,").toList] [("  [\"mr\"] = 9,").toList]
    ((" [\"A\"] = \x7b").toList) ((" \x7d,").toList)
    ((" [\"A\"] = \x7b").toList) ((" \x7d,").toList) (("A").toList)
    (by rfl) (by rfl) (by rfl) (by rfl) (by decide) (by decide)
    (by rfl) (by rfl) (by decide) (by decide) (by decide)
    (by decide) (by decide)

set_option maxRecDepth 8000 in
/-- Witness for C9 at the concrete input exC9: entity C collects a field
but its block is never terminated, so its fields stay in the accumulator
and C is absent from the output. -/
theorem C9_witness :
    (parseLines (splitLines exC9lua)).curName = some (("C").toList) ∧
    (parseLines (splitLines exC9lua)).curData =
      accumFields [("  [\"mr\"] = 3,").toList, (" \x7d").toList, ("\x7d").toList] ∧
    ∃ db, parse_lua_file exC9 = some db ∧
      lookupA (("C").toList) db.items = none ∧
      ∀ out, mainOutput exC9 = some out → ∀ e ∈ out.items, e.name ≠ (("C").toList) :=
  C9_open_at_end_dropped exC9 exC9lua
    [("\x7b").toList, (" [\"A\"] = \x7b").toList, ("  [\"mr\"] = 5,").toList,
      (" \x7d,").toList]
    [("  [\"mr\"] = 3,").toList, (" \x7d").toList, ("\x7d").toList]
    ((" [\"C\"] = \x7b").toList) (("C").toList)
    (by rfl) (by rfl) (by rfl) (by decide) (by decide)

theorem grabGroup_sound {s g : Chars} (h : grabGroup s = some g) :
    ∃ k, begins ('\x7d' :: endTail) (s.drop k) = true := by
  induction s generalizing g with
  | nil => simp [grabGroup] at h
  | cons c rest ih =>
    by_cases hc : c = '\x7d' ∧ begins endTail rest = true
    · obtain ⟨hc1, hc2⟩ := hc
      subst hc1
      refine ⟨0, ?_⟩
      simp [begins, hc2]
    · rw [grabGroup, if_neg hc] at h
      cases hg : grabGroup rest with
      | none =>
        rw [hg] at h
        simp at h
      | some g' =>
        obtain ⟨k, hk⟩ := ih hg
        exact ⟨k + 1, by simpa using hk⟩

theorem locate_sound {content lua : Chars} (h : locate content = some lua) :
    ∃ i j, i + startTok.length ≤ j ∧ begins startTok (content.drop i) = true ∧
      begins ('\x7d' :: endTail) (content.drop j) = true := by
  induction content generalizing lua with
  | nil => simp [locate] at h
  | cons c rest ih =>
    by_cases hs : begins startTok (c :: rest) = true
    · cases hg : grabGroup ((c :: rest).drop startTok.length) with
      | none =>
        rw [locate, if_pos hs, hg] at h
        obtain ⟨i, j, hij, h1, h2⟩ := ih h
        exact ⟨i + 1, j + 1, by omega, by simpa using h1, by simpa using h2⟩
      | some g =>
        obtain ⟨k, hk⟩ := grabGroup_sound hg
        refine ⟨0, startTok.length + k, by omega, hs, ?_⟩
        rw [List.drop_drop] at hk
        simpa [Nat.add_comm] using hk
    · rw [locate, if_neg hs] at h
      obtain ⟨i, j, hij, h1, h2⟩ := ih h
      exact ⟨i + 1, j + 1, by omega, by simpa using h1, by simpa using h2⟩

/-- C4: when the input holds no in-order pair of a start-marker
occurrence and a later closing-brace-plus-end-marker occurrence, the
parse returns the empty result.  The parse is a total function of the
input text, so this is its only outward-visible failure: it cannot
raise. -/
theorem C4_markers_missing (content : Chars)
    (h : ¬ ∃ i j, i + startTok.length ≤ j ∧ begins startTok (content.drop i) = true ∧
          begins ('\x7d' :: endTail) (content.drop j) = true) :
    parse_lua_file content = none := by
  cases hl : locate content with
  | none => simp [parse_lua_file, hl]
  | some lua => exact absurd (locate_sound hl) h

/-- Witness for C4 at the concrete marker-free input: the hypothesis
holds because the input is shorter than the start marker, and the parse
returns the empty result. -/
theorem C4_witness :
    (¬ ∃ i j, i + startTok.length ≤ j ∧ begins startTok (exC4w.drop i) = true ∧
        begins ('\x7d' :: endTail) (exC4w.drop j) = true) ∧
      parse_lua_file exC4w = none := by
  have h : ¬ ∃ i j, i + startTok.length ≤ j ∧ begins startTok (exC4w.drop i) = true ∧
      begins ('\x7d' :: endTail) (exC4w.drop j) = true := by
    rintro ⟨i, j, _, hs, _⟩
    have hlen := begins_length hs
    rw [List.length_drop] at hlen
    have e1 : startTok.length = 30 := by rfl
    have e2 : exC4w.length = 15 := by rfl
    omega
  exact ⟨h, C4_markers_missing exC4w h⟩

theorem digit_ne_of {c x : Char} (h : isDigitChar c = true) (hx : isDigitChar x = false) :
    c ≠ x := fun he => by rw [he, hx] at h; exact Bool.noConfusion h

theorem matchHistAt_eval (ds vs : Chars) (hds : ds ≠ []) (hdsd : ∀ c ∈ ds, isDigitChar c = true)
    (hvs : vs ≠ []) (hvsd : ∀ c ∈ vs, isDigitChar c = true) :
    matchHistAt ('[' :: '"' :: 'H' :: (ds ++ eqAssign ++ vs ++ [','])) =
      some ('H' :: ds, digitsToNat vs) := by
  have h1 : stripLit ('[' :: '"' :: 'H' :: []) ('[' :: '"' :: 'H' :: (ds ++ eqAssign ++ vs ++ [','])) = some (ds ++ eqAssign ++ vs ++ [',']) := stripLit_of_append _ _
  have hsh : ds ++ eqAssign ++ vs ++ [','] = ds ++ '"' :: (']' :: ' ' :: '=' :: ' ' :: (vs ++ [','])) := by
    simp [eqAssign]
  have htake : (ds ++ '"' :: (']' :: ' ' :: '=' :: ' ' :: (vs ++ [',']))).takeWhile isDigitChar = ds :=
    takeWhile_all_append _ _ hdsd (by decide)
  have hdrop : (ds ++ '"' :: (']' :: ' ' :: '=' :: ' ' :: (vs ++ [',']))).dropWhile isDigitChar = '"' :: (']' :: ' ' :: '=' :: ' ' :: (vs ++ [','])) :=
    dropWhile_all_append _ _ hdsd (by decide)
  have h2 : stripLit eqAssign ('"' :: (']' :: ' ' :: '=' :: ' ' :: (vs ++ [',']))) = some (vs ++ [',']) := stripLit_of_append _ _
  obtain ⟨v0, vs', rfl⟩ : ∃ v0 vs', vs = v0 :: vs' := by
    cases vs with
    | nil => exact absurd rfl hvs
    | cons a b => exact ⟨a, b, rfl⟩
  have htakev : ((v0 :: vs') ++ [',']).takeWhile isDigitChar = v0 :: vs' :=
    takeWhile_all_append _ _ hvsd (by decide)
  unfold matchHistAt
  rw [h1, Option.some_bind, hsh, htake, hdrop]
  simp only [h2, Option.some_bind, htakev]
  simp [hds]

theorem keyBraceAt_some_iff {s n : Chars} :
    keyBraceAt s = some n ↔
      n ≠ [] ∧ '"' ∉ n ∧
        ∃ r, s = '[' :: '"' :: (n ++ '"' :: ']' :: ' ' :: '=' :: ' ' :: '\x7b' :: r) := by
  constructor
  · intro h
    unfold keyBraceAt at h
    cases h1 : stripLit ('[' :: '"' :: []) s with
    | none => rw [h1] at h; simp at h
    | some r1 =>
      rw [h1, Option.some_bind] at h
      cases h2 : splitAtQuote r1 with
      | none => rw [h2] at h; simp at h
      | some nr =>
        obtain ⟨nm, r2⟩ := nr
        rw [h2, Option.some_bind] at h
        by_cases hnm : nm = []
        · simp [hnm] at h
        · rw [if_neg hnm] at h
          by_cases hb : begins keyTail r2 = true
          · rw [if_pos hb] at h
            have hn : nm = n := by simpa using h
            subst hn
            obtain ⟨hr1, hqn⟩ := splitAtQuote_sound h2
            obtain ⟨r, hr2⟩ := begins_exists hb
            have hst := stripLit_exists h1
            refine ⟨hnm, hqn, r, ?_⟩
            rw [hst, hr1, hr2]
            simp [keyTail]
          · rw [if_neg hb] at h
            simp at h
  · rintro ⟨hne, hq, r, rfl⟩
    unfold keyBraceAt
    have hb : begins keyTail (']' :: ' ' :: '=' :: ' ' :: '\x7b' :: r) = true :=
      begins_of_append keyTail r
    rw [show ('[' :: '"' :: (n ++ '"' :: ']' :: ' ' :: '=' :: ' ' :: '\x7b' :: r) : Chars)
        = ('[' :: '"' :: []) ++ (n ++ '"' :: ']' :: ' ' :: '=' :: ' ' :: '\x7b' :: r) from rfl,
      stripLit_of_append, Option.some_bind,
      splitAtQuote_complete (']' :: ' ' :: '=' :: ' ' :: '\x7b' :: r) hq, Option.some_bind]
    simp [hne, hb]

theorem quote_decomp_unique {a b x y : Chars} (ha : '"' ∉ a) (hb : '"' ∉ b)
    (h : a ++ '"' :: x = b ++ '"' :: y) : a = b ∧ x = y := by
  have h1 := splitAtQuote_complete x ha
  rw [h, splitAtQuote_complete y hb] at h1
  have h2 := Option.some.inj h1
  exact ⟨(congrArg Prod.fst h2).symm, (congrArg Prod.snd h2).symm⟩

theorem searchHist_cons_some {c : Char} {s : Chars} {kv : Chars × Nat}
    (h : matchHistAt (c :: s) = some kv) : searchHist (c :: s) = some kv := by
  simp [searchHist, h]

theorem histLine_tail_no_bracket {ds vs : Chars}
    (hdsd : ∀ c ∈ ds, isDigitChar c = true) (hvsd : ∀ c ∈ vs, isDigitChar c = true) :
    ∀ c ∈ ('"' :: 'H' :: (ds ++ eqAssign ++ vs ++ [','])), c ≠ '[' := by
  intro c hc
  rcases List.mem_cons.mp hc with rfl | hc1
  · decide
  rcases List.mem_cons.mp hc1 with rfl | hc2
  · decide
  rcases List.mem_append.mp hc2 with h3 | h3
  · rcases List.mem_append.mp h3 with h4 | h4
    · rcases List.mem_append.mp h4 with h5 | h5
      · exact digit_ne_of (hdsd c h5) (by decide)
      · simp [eqAssign] at h5
        rcases h5 with rfl | rfl | rfl | rfl | rfl <;> decide
    · exact digit_ne_of (hvsd c h4) (by decide)
  · simp at h3
    subst h3
    decide

theorem histLine_not_open {ds vs : Chars} (hdsd : ∀ c ∈ ds, isDigitChar c = true)
    (hvs : vs ≠ []) (hvsd : ∀ c ∈ vs, isDigitChar c = true) :
    itemNameMatch (histLine ds vs) = none := by
  obtain ⟨v0, vs', rfl⟩ : ∃ v0 vs', vs = v0 :: vs' := by
    cases vs with
    | nil => exact absurd rfl hvs
    | cons a b => exact ⟨a, b, rfl⟩
  have hq : '"' ∉ 'H' :: ds := by
    intro hm
    rcases List.mem_cons.mp hm with he | hm'
    · exact absurd he (by decide)
    · exact absurd (hdsd _ hm') (by decide)
  have hdw : (histLine ds (v0 :: vs')).dropWhile isSpaceChar = histLine ds (v0 :: vs') :=
    List.dropWhile_cons_of_neg (by decide)
  unfold itemNameMatch
  rw [hdw]
  cases hk : keyBraceAt (histLine ds (v0 :: vs')) with
  | none => rfl
  | some n =>
    exfalso
    obtain ⟨hne, hqn, r, hr⟩ := keyBraceAt_some_iff.mp hk
    have hsh : ('H' : Char) :: (ds ++ eqAssign ++ (v0 :: vs') ++ [','])
        = ('H' :: ds) ++ '"' :: (']' :: ' ' :: '=' :: ' ' :: ((v0 :: vs') ++ [','])) := by
      simp [eqAssign]
    have hr' : ('H' :: ds) ++ '"' :: (']' :: ' ' :: '=' :: ' ' :: ((v0 :: vs') ++ [',']))
        = n ++ '"' :: (']' :: ' ' :: '=' :: ' ' :: '\x7b' :: r) := by
      unfold histLine at hr
      injection hr with _ h2
      injection h2 with _ h3
      exact hsh.symm.trans h3
    obtain ⟨_, hxy⟩ := quote_decomp_unique hq hqn hr'
    simp at hxy
    obtain ⟨hv0, _⟩ := hxy
    exact absurd (hv0 ▸ hvsd v0 (by simp)) (by decide)

theorem histLine_not_term {ds vs : Chars} : isTermLine (histLine ds vs) = false := by
  have hdw : (histLine ds vs).dropWhile isSpaceChar = histLine ds vs :=
    List.dropWhile_cons_of_neg (by decide)
  have hstrip : stripChars (histLine ds vs)
      = '[' :: dropTrailing isSpaceChar ('"' :: 'H' :: (ds ++ eqAssign ++ vs ++ [','])) := by
    unfold stripChars
    rw [hdw]
    exact dropTrailing_cons _ (by decide)
  simp [isTermLine, hstrip, termChars]

theorem histLine_fixed_none {ds vs : Chars} (key : Chars)
    (hkey : key = lastScanKey ∨ key = mrKey)
    (hdsd : ∀ c ∈ ds, isDigitChar c = true) (hvsd : ∀ c ∈ vs, isDigitChar c = true) :
    searchFixed key (histLine ds vs) = none := by
  have hm : matchFixedAt key (histLine ds vs) = none := by
    have h0 : stripLit (fixedPat key) (histLine ds vs) = none := by
      rcases hkey with rfl | rfl
      · have e : fixedPat lastScanKey
            = '[' :: '"' :: 'l' :: 'a' :: 's' :: 't' :: 'S' :: 'c' :: 'a' :: 'n'
              :: '"' :: ']' :: ' ' :: '=' :: ' ' :: [] := by rfl
        rw [e]
        unfold histLine
        simp [stripLit]
      · have e : fixedPat mrKey
            = '[' :: '"' :: 'm' :: 'r' :: '"' :: ']' :: ' ' :: '=' :: ' ' :: [] := by rfl
        rw [e]
        unfold histLine
        simp [stripLit]
    simp [matchFixedAt, h0]
  rw [show histLine ds vs
      = '[' :: ('"' :: 'H' :: (ds ++ eqAssign ++ vs ++ [','])) from rfl] at hm ⊢
  rw [searchFixed_cons_none hm]
  exact searchFixed_none_all (histLine_tail_no_bracket hdsd hvsd)

theorem histLine_fieldApply {d : Fields} {ds vs : Chars}
    (hds : ds ≠ []) (hdsd : ∀ c ∈ ds, isDigitChar c = true)
    (hvs : vs ≠ []) (hvsd : ∀ c ∈ vs, isDigitChar c = true) :
    fieldApply d (histLine ds vs) = insertAssoc ('H' :: ds) (digitsToNat vs) d := by
  have hh : searchHist (histLine ds vs) = some ('H' :: ds, digitsToNat vs) := by
    rw [show histLine ds vs
        = '[' :: ('"' :: 'H' :: (ds ++ eqAssign ++ vs ++ [','])) from rfl]
    exact searchHist_cons_some (matchHistAt_eval ds vs hds hdsd hvs hvsd)
  unfold fieldApply
  rw [histLine_fixed_none lastScanKey (Or.inl rfl) hdsd hvsd,
    histLine_fixed_none mrKey (Or.inr rfl) hdsd hvsd, hh]

theorem lookupA_filter_pos {k : Chars} (hk : isHistKey k = true) (d : Fields) :
    lookupA k (d.filter (fun kv => isHistKey kv.1)) = lookupA k d := by
  induction d with
  | nil => rfl
  | cons p t ih =>
    obtain ⟨a, b⟩ := p
    by_cases ha : a = k
    · subst ha
      simp [List.filter_cons, hk, lookupA]
    · by_cases hfa : isHistKey a = true
      · simp [List.filter_cons, hfa, lookupA, ha, ih]
      · simp [List.filter_cons, hfa, lookupA, ha, ih]

theorem lookupA_filter_neg {k : Chars} (hk : isHistKey k = false) (d : Fields) :
    lookupA k (d.filter (fun kv => isHistKey kv.1)) = none := by
  induction d with
  | nil => rfl
  | cons p t ih =>
    obtain ⟨a, b⟩ := p
    by_cases hfa : isHistKey a = true
    · have ha : a ≠ k := fun he => by rw [he, hk] at hfa; exact Bool.noConfusion hfa
      simp [List.filter_cons, hfa, lookupA, ha, ih]
    · simp [List.filter_cons, hfa, ih]

/-- C1 amended: the extractor does not accept every letters-then-digits
key: it recognizes exactly the keys made of the literal letter H followed
by one or more digits.  Such a field line, parsed while an entity is
open, stores the entire key verbatim with its integer value in the open
accumulator, and the projector's history map keeps exactly the keys that
start with H and continue with a nonempty digit string: a key of any
other shape is never present in a projected history map. -/
theorem C1_amended_H_prefix (s : PState) (cn ds vs : Chars)
    (hcn : s.curName = some cn)
    (hds : ds ≠ []) (hdsd : ∀ c ∈ ds, isDigitChar c = true)
    (hvs : vs ≠ []) (hvsd : ∀ c ∈ vs, isDigitChar c = true) :
    (step s (histLine ds vs)).curName = some cn ∧
    lookupA ('H' :: ds) (step s (histLine ds vs)).curData = some (digitsToNat vs) ∧
    isHistKey ('H' :: ds) = true ∧
    (∀ nm d v, lookupA ('H' :: ds) d = some v →
      lookupA ('H' :: ds) (projectItem nm d).history = some v) ∧
    (∀ nm d k, isHistKey k = false → lookupA k (projectItem nm d).history = none) := by
  have hio : openNameOf (histLine ds vs) = none := by
    unfold openNameOf
    simp [histLine_not_open hdsd hvs hvsd]
  have hstep : step s (histLine ds vs)
      = { items := s.items, curName := some cn,
          curData := fieldApply s.curData (histLine ds vs) } := by
    rw [step_not_open hio, stepField_mid hcn histLine_not_term]
  have hhk : isHistKey ('H' :: ds) = true := by
    simp [isHistKey, hds, List.all_eq_true]
    exact hdsd
  refine ⟨by rw [hstep], ?_, hhk, ?_, ?_⟩
  · rw [hstep]
    show lookupA ('H' :: ds) (fieldApply s.curData (histLine ds vs)) = some (digitsToNat vs)
    rw [histLine_fieldApply hds hdsd hvs hvsd]
    exact lookupA_insert_self _ _ _
  · intro nm d v hv
    show lookupA ('H' :: ds) (d.filter (fun kv => isHistKey kv.1)) = some v
    rw [lookupA_filter_pos hhk]
    exact hv
  · intro nm d k hk
    exact lookupA_filter_neg hk d

set_option maxRecDepth 8000 in
/-- Witness for the amended C1: a concrete history line with key H5553
and value 4800 processed while the entity Widget is open is stored and
survives projection. -/
theorem C1_amended_witness :
    (step { items := [], curName := some (("Widget").toList), curData := [] }
        (histLine (("5553").toList) (("4800").toList))).curName
      = some (("Widget").toList) ∧
    lookupA ('H' :: ("5553").toList)
        (step { items := [], curName := some (("Widget").toList), curData := [] }
          (histLine (("5553").toList) (("4800").toList))).curData
      = some (digitsToNat (("4800").toList)) ∧
    isHistKey ('H' :: ("5553").toList) = true ∧
    (∀ nm d v, lookupA ('H' :: ("5553").toList) d = some v →
      lookupA ('H' :: ("5553").toList) (projectItem nm d).history = some v) ∧
    (∀ nm d k, isHistKey k = false → lookupA k (projectItem nm d).history = none) :=
  C1_amended_H_prefix
    { items := [], curName := some (("Widget").toList), curData := [] }
    (("Widget").toList) (("5553").toList) (("4800").toList)
    rfl (by decide) (by decide) (by decide) (by decide)

/-- C8: a line is classified entity-open exactly when, after dropping
leading whitespace, it starts with the bracket-quoted-name, equals sign
and open brace shape (nonempty quote-free name) and the whole line
contains exactly one open-bracket character.  An entity-open line resets
the field accumulator to empty, so it is never also treated as a field
line, and a line matching the shape but holding more than one open
bracket is handed to the field-and-terminator part instead of opening an
entity. -/
theorem C8_open_classification (line : Chars) :
    (isOpenLineB line = true ↔
      ((∃ n r, line.dropWhile isSpaceChar
          = '[' :: '"' :: (n ++ '"' :: ']' :: ' ' :: '=' :: ' ' :: '\x7b' :: r) ∧
          n ≠ [] ∧ '"' ∉ n) ∧ line.count '[' = 1)) ∧
    (∀ s : PState, isOpenLineB line = true →
      (step s line).curData = [] ∧ (step s line).curName = itemNameMatch line) ∧
    (∀ s : PState, (itemNameMatch line).isSome = true → line.count '[' ≠ 1 →
      step s line = stepField s line) := by
  refine ⟨?_, ?_, ?_⟩
  · unfold isOpenLineB
    constructor
    · intro h
      simp at h
      obtain ⟨h1, h2⟩ := h
      obtain ⟨n, hn⟩ := Option.isSome_iff_exists.mp h1
      obtain ⟨hne, hq, r, hr⟩ := keyBraceAt_some_iff.mp hn
      exact ⟨⟨n, r, hr, hne, hq⟩, h2⟩
    · rintro ⟨⟨n, r, hr, hne, hq⟩, hc⟩
      have hn : itemNameMatch line = some n :=
        keyBraceAt_some_iff.mpr ⟨hne, hq, r, hr⟩
      simp [hn, hc]
  · intro s h
    simp [isOpenLineB] at h
    obtain ⟨h1, h2⟩ := h
    obtain ⟨n, hn⟩ := Option.isSome_iff_exists.mp h1
    have ho : openNameOf line = some n := openNameOf_some_iff.mpr ⟨hn, h2⟩
    rw [step_open ho]
    exact ⟨rfl, by simp [hn]⟩
  · intro s h hc
    apply step_not_open
    unfold openNameOf
    rw [if_neg hc]

set_option maxRecDepth 8000 in
/-- Witness for C8 at a concrete entity-open line: the classifier
accepts it, the step resets the accumulator and records the matched
name. -/
theorem C8_witness :
    (step initState (("[\"X\"] = \x7b").toList)).curData = [] ∧
    (step initState (("[\"X\"] = \x7b").toList)).curName =
      itemNameMatch (("[\"X\"] = \x7b").toList) :=
  (C8_open_classification (("[\"X\"] = \x7b").toList)).2.1 initState (by decide)

set_option maxRecDepth 8000 in
/-- C6: a committed entity lacking the lastScan or the mr field gets 0
for the missing fixed field in the projected record; an entity whose
only field is lastScan is projected with mr zero and an empty history
map, and concretely such an entity is kept in the end-to-end output. -/
theorem C6_missing_fixed_defaults (nm : Chars) (d : Fields) :
    (lookupA lastScanKey d = none → (projectItem nm d).lastScan = 0) ∧
    (lookupA mrKey d = none → (projectItem nm d).mr = 0) ∧
    (∀ v : Nat, projectItem nm [(lastScanKey, v)] =
      { name := nm, lastScan := v, mr := 0, history := [] }) ∧
    mainOutput exC6 =
      some { realm := some (("R6").toList),
             items := [{ name := ("Gadget").toList, lastScan := 1, mr := 0,
                         history := [] }] } := by
  refine ⟨?_, ?_, ?_, by rfl⟩
  · intro h
    simp [projectItem, h]
  · intro h
    simp [projectItem, h]
  · intro v
    have h1 : lookupA lastScanKey [(lastScanKey, v)] = some v := by
      simp [lookupA]
    have h2 : lookupA mrKey [(lastScanKey, v)] = none := by
      have hne : lastScanKey ≠ mrKey := by decide
      simp [lookupA, hne]
    have h3 : [(lastScanKey, v)].filter (fun kv => isHistKey kv.1) = [] := by
      have hh : isHistKey lastScanKey = false := by decide
      simp [List.filter_cons, hh]
    simp [projectItem, h1, h2, h3]

/-- Witness for C6: projecting an entity with no fields at all yields
zero for both fixed fields. -/
theorem C6_witness :
    (projectItem (("X").toList) []).lastScan = 0 ∧
      (projectItem (("X").toList) []).mr = 0 :=
  ⟨(C6_missing_fixed_defaults (("X").toList) []).1 rfl,
   (C6_missing_fixed_defaults (("X").toList) []).2.1 rfl⟩

theorem searchKeyBrace_some_iff :
    ∀ (s : Chars) (n : Chars), searchKeyBrace s = some n ↔
      ∃ i, keyBraceAt (s.drop i) = some n ∧ ∀ j < i, keyBraceAt (s.drop j) = none := by
  intro s
  induction s with
  | nil =>
    intro n
    constructor
    · intro h
      exact absurd h (by simp [searchKeyBrace])
    · rintro ⟨i, hi, _⟩
      rw [List.drop_nil] at hi
      rw [show keyBraceAt ([] : Chars) = none from rfl] at hi
      exact Option.noConfusion hi
  | cons c rest ih =>
    intro n
    cases h0 : keyBraceAt (c :: rest) with
    | some m =>
      have hs : searchKeyBrace (c :: rest) = some m := by
        unfold searchKeyBrace
        rw [h0]
      rw [hs]
      constructor
      · intro h
        refine ⟨0, ?_, ?_⟩
        · rw [List.drop_zero, h0]
          exact h
        · intro j hj
          omega
      · rintro ⟨i, hi, hj⟩
        cases i with
        | zero =>
          rw [List.drop_zero, h0] at hi
          exact hi
        | succ i' =>
          have h00 := hj 0 (Nat.succ_pos _)
          rw [List.drop_zero, h0] at h00
          exact absurd h00 (by simp)
    | none =>
      have hs : searchKeyBrace (c :: rest) = searchKeyBrace rest := by
        simp [searchKeyBrace, h0]
      rw [hs, ih n]
      constructor
      · rintro ⟨i, hi, hj⟩
        refine ⟨i + 1, by simpa using hi, ?_⟩
        intro j hjlt
        cases j with
        | zero => simpa using h0
        | succ j' =>
          have := hj j' (by omega)
          simpa using this
      · rintro ⟨i, hi, hj⟩
        cases i with
        | zero =>
          rw [List.drop_zero, h0] at hi
          exact absurd hi (by simp)
        | succ i' =>
          refine ⟨i', by simpa using hi, ?_⟩
          intro j hjlt
          have := hj (j + 1) (by omega)
          simpa using this

/-- C7 amended: the realm returned by the parse is the name of the
textually first key-and-open-brace occurrence anywhere in the located
literal, regardless of brace nesting depth; when no occurrence exists
the realm is null and the parse still succeeds. -/
theorem C7_amended_first_occurrence (content lua : Chars)
    (hloc : locate content = some lua) :
    (∃ db, parse_lua_file content = some db ∧ db.realm = searchKeyBrace lua) ∧
    (∀ n, searchKeyBrace lua = some n ↔
      ∃ i, keyBraceAt (lua.drop i) = some n ∧
        ∀ j < i, keyBraceAt (lua.drop j) = none) ∧
    (searchKeyBrace lua = none →
      ∃ db, parse_lua_file content = some db ∧ db.realm = none) := by
  refine ⟨⟨_, parse_items hloc, rfl⟩, fun n => searchKeyBrace_some_iff lua n, ?_⟩
  intro hn
  exact ⟨_, parse_items hloc, hn⟩

set_option maxRecDepth 8000 in
/-- Witness for the amended C7 at the concrete input exC7. -/
theorem C7_amended_witness :
    (∃ db, parse_lua_file exC7 = some db ∧ db.realm = searchKeyBrace exC7lua) ∧
    (∀ n, searchKeyBrace exC7lua = some n ↔
      ∃ i, keyBraceAt (exC7lua.drop i) = some n ∧
        ∀ j < i, keyBraceAt (exC7lua.drop j) = none) ∧
    (searchKeyBrace exC7lua = none →
      ∃ db, parse_lua_file exC7 = some db ∧ db.realm = none) :=
  C7_amended_first_occurrence exC7 exC7lua (by rfl)
